import Mathlib

/-!
Verification of `libgcc/config/sh/sfp-exceptions.c`.

The C file defines a single routine

  void __sfp_handle_exceptions (int _fex)

which, depending on the compile-time configuration conditionals
`__SH_FPU_ANY__` and `__SH2E__`, executes up to five inline floating-point
instructions, each chosen to provoke one IEEE-754 exception on the SH FPU.
We embed the routine as a pure function from a configuration and a request
mask to the list of hardware triggers it executes, in execution order.
The `FP_EX_*` mask constants come from the external header `sfp-machine.h`
and are kept as parameters, since the source consumes only their symbolic
names.
-/

namespace SfpSh

/-- The five IEEE-754 exception kinds handled by the routine. -/
inductive Kind
  | inexact
  | underflow
  | overflow
  | divzero
  | invalid
deriving DecidableEq, Repr, Fintype

/-- The compile-time configuration the body of the routine branches on:
`sh_fpu_any` holds when `__SH_FPU_ANY__` is defined (some FPU present) and
`sh2e` holds when `__SH2E__` is defined (the reduced FPU variant, whose
INEXACT, UNDERFLOW and OVERFLOW blocks are compiled out). -/
structure Config where
  sh_fpu_any : Bool
  sh2e : Bool
deriving DecidableEq, Repr

/-- The `FP_EX_*` bit-mask constants of `sfp-machine.h`.  The header is an
external collaborator of this file; the routine consumes only the symbolic
names, so the numeric values stay parameters of the development. -/
structure FPExBits where
  FP_EX_INEXACT : Nat
  FP_EX_UNDERFLOW : Nat
  FP_EX_OVERFLOW : Nat
  FP_EX_DIVZERO : Nat
  FP_EX_INVALID : Nat
deriving DecidableEq, Repr

/-- The mask constant associated to each exception kind. -/
def bitOf (b : FPExBits) : Kind → Nat
  | .inexact => b.FP_EX_INEXACT
  | .underflow => b.FP_EX_UNDERFLOW
  | .overflow => b.FP_EX_OVERFLOW
  | .divzero => b.FP_EX_DIVZERO
  | .invalid => b.FP_EX_INVALID

/-- Well-formed bit assignment: each `FP_EX_*` constant is nonzero, and the
constants of distinct kinds share no bit (each kind has its own bit, as
the name "bit mask" promises). -/
def FPExBits.wf (b : FPExBits) : Prop :=
  (∀ k, bitOf b k ≠ 0) ∧ ∀ k j, k ≠ j → bitOf b k &&& bitOf b j = 0

/-- Shallow embedding of `__sfp_handle_exceptions`: the list of hardware
triggers the routine executes, in execution order.  This mirrors the C body
line by line: under `__SH_FPU_ANY__`, and with the first three checks
additionally under `!defined(__SH2E__)`, each `if (_fex & FP_EX_k)` block
contributes its trigger exactly when the bitwise test is nonzero. -/
def __sfp_handle_exceptions (b : FPExBits) (cfg : Config) (fex : Nat) : List Kind :=
  if cfg.sh_fpu_any then
    (if cfg.sh2e = false then
      (if fex &&& b.FP_EX_INEXACT ≠ 0 then [Kind.inexact] else []) ++
      (if fex &&& b.FP_EX_UNDERFLOW ≠ 0 then [Kind.underflow] else []) ++
      (if fex &&& b.FP_EX_OVERFLOW ≠ 0 then [Kind.overflow] else [])
    else []) ++
    (if fex &&& b.FP_EX_DIVZERO ≠ 0 then [Kind.divzero] else []) ++
    (if fex &&& b.FP_EX_INVALID ≠ 0 then [Kind.invalid] else [])
  else []

/-- The full-FPU configuration: `__SH_FPU_ANY__` defined, `__SH2E__` not. -/
def fullCfg : Config := ⟨true, false⟩

/-- The reduced-FPU configuration: `__SH_FPU_ANY__` and `__SH2E__` both
defined. -/
def sh2eCfg : Config := ⟨true, true⟩

/-- The order in which the five checks appear in the source. -/
def checkOrder : List Kind :=
  [Kind.inexact, Kind.underflow, Kind.overflow, Kind.divzero, Kind.invalid]

/-- Which kinds a configuration supports, i.e. has a compiled-in trigger
for: none without an FPU, only DIVZERO and INVALID under `__SH2E__`, and
all five on the full FPU. -/
def Config.supports (cfg : Config) (k : Kind) : Prop :=
  cfg.sh_fpu_any = true ∧
    (cfg.sh2e = false ∨ k = Kind.divzero ∨ k = Kind.invalid)

instance (cfg : Config) (k : Kind) : Decidable (cfg.supports k) := by
  unfold Config.supports; infer_instance

instance (b : FPExBits) : Decidable b.wf := by
  unfold FPExBits.wf; infer_instance

/-- Observable behaviour on a trapping configuration: the exception raised
by the first executed trigger traps and diverts control before any later
trigger executes, so the trap the caller observes is the head of the
execution trace (none when no trigger runs and the call falls through). -/
def observed_trap (b : FPExBits) (cfg : Config) (fex : Nat) : Option Kind :=
  (__sfp_handle_exceptions b cfg fex).head?

/-- Sticky status flags of the FPU, one per exception kind. -/
def Flags : Type := Kind → Bool

/-- Observable behaviour of one trigger on a non-trapping (flags-only)
configuration: it sets the sticky status flag of its kind and touches
nothing else. -/
def raiseFlag (s : Flags) (k : Kind) : Flags :=
  fun j => if j = k then true else s j

/-- Running a trace of triggers over the sticky flag state, in order. -/
def runTriggers (s : Flags) (t : List Kind) : Flags :=
  t.foldl raiseFlag s

/-- The floating-point instructions used by the triggers. -/
inductive FPInsn
  | fdiv
  | fmul
deriving DecidableEq, Repr

/-- The operand constants appearing in the C source.  `posInf` is the
value of `__builtin_huge_val ()`; `ldblMin` and `ldblMax` are
`__LDBL_MIN__` and `__LDBL_MAX__`, the smallest positive normal and the
largest finite extended-precision values. -/
inductive Val
  | one
  | three
  | ten
  | zero
  | ldblMin
  | ldblMax
  | posInf
deriving DecidableEq, Repr

/-- Embedding of `#define HUGE_VAL (__builtin_huge_val ())`: positive
infinity. -/
def HUGE_VAL : Val := Val.posInf

/-- One executed trigger: the instruction, the initial value of its
destination operand (`%0`, which is also a source) and its source operand
(`%1`).  On SH, `fdiv src, dst` computes `dst := dst / src` and
`fmul src, dst` computes `dst := dst * src`. -/
structure Trigger where
  insn : FPInsn
  dst : Val
  src : Val
deriving DecidableEq, Repr

/-- The hardware operation each block of the routine executes, read off
the C source: the local operand initialisations together with the inline
instruction of each `if` body (the OVERFLOW block is `fmul %0, %0`,
squaring its operand). -/
def asmOf : Kind → Trigger
  | .inexact => ⟨.fdiv, .one, .three⟩
  | .underflow => ⟨.fdiv, .ldblMin, .ten⟩
  | .overflow => ⟨.fmul, .ldblMax, .ldblMax⟩
  | .divzero => ⟨.fdiv, .one, .zero⟩
  | .invalid => ⟨.fmul, HUGE_VAL, .zero⟩

/-- The sequence of hardware operations a call executes. -/
def executedOps (b : FPExBits) (cfg : Config) (fex : Nat) : List Trigger :=
  (__sfp_handle_exceptions b cfg fex).map asmOf

/-- Representative concrete bit assignment (the flag-field layout of the
SH FPSCR: one bit per kind, bits 2 to 6), used to instantiate theorems
with hypotheses on concrete inputs. -/
def shBits : FPExBits := ⟨4, 8, 16, 32, 64⟩

/-- The union of the five recognised `FP_EX_*` masks. -/
def allKindBits (b : FPExBits) : Nat :=
  b.FP_EX_INEXACT ||| b.FP_EX_UNDERFLOW ||| b.FP_EX_OVERFLOW |||
    b.FP_EX_DIVZERO ||| b.FP_EX_INVALID

/-- The extended-precision (long double) format parameters supplied by the
compiler: `__LDBL_MIN__` (smallest positive normal value) and
`__LDBL_MAX__` (largest finite value), kept symbolic as rationals. -/
structure LDblFormat where
  min_normal : ℚ
  max_finite : ℚ

/-- A floating-point operand value: finite (a rational) or positive
infinity. -/
inductive FVal
  | fin (q : ℚ)
  | posInf
deriving DecidableEq

/-- Numeric interpretation of the operand constants. -/
def Val.eval (F : LDblFormat) : Val → FVal
  | .one => .fin 1
  | .three => .fin 3
  | .ten => .fin 10
  | .zero => .fin 0
  | .ldblMin => .fin F.min_normal
  | .ldblMax => .fin F.max_finite
  | .posInf => .posInf

/-- Description, in the words of the specification, of the operation each
kind is triggered by: INEXACT divides 1.0 by 3.0; UNDERFLOW divides
`__LDBL_MIN__` by 10, a value greater than one; OVERFLOW multiplies
`__LDBL_MAX__` by itself; DIVIDE-BY-ZERO divides the nonzero finite value
1.0 by exactly 0.0; INVALID multiplies positive infinity by exactly
0.0. -/
def OpSpec (F : LDblFormat) : Kind → Trigger → Prop
  | .inexact, t => t.insn = .fdiv ∧ t.dst.eval F = .fin 1 ∧ t.src.eval F = .fin 3
  | .underflow, t => t.insn = .fdiv ∧ t.dst = Val.ldblMin ∧
      t.src.eval F = .fin 10 ∧ (1 : ℚ) < 10
  | .overflow, t => t.insn = .fmul ∧ t.dst = Val.ldblMax ∧ t.src = Val.ldblMax
  | .divzero, t => t.insn = .fdiv ∧ t.dst.eval F = .fin 1 ∧ (1 : ℚ) ≠ 0 ∧
      t.src.eval F = .fin 0
  | .invalid, t => t.insn = .fmul ∧ t.dst.eval F = .posInf ∧ t.src.eval F = .fin 0

/-! ## General lemmas -/

/-- Bitwise and distributes over bitwise or on `Nat`. -/
theorem or_and_distrib (a b c : Nat) :
    (a ||| b) &&& c = (a &&& c) ||| (b &&& c) := by
  apply Nat.eq_of_testBit_eq
  intro i
  simp only [Nat.testBit_and, Nat.testBit_or]
  cases a.testBit i <;> cases b.testBit i <;> cases c.testBit i <;> rfl

/-- A bitwise or of naturals vanishes exactly when both sides vanish. -/
theorem or_eq_zero (a b : Nat) : a ||| b = 0 ↔ a = 0 ∧ b = 0 := by
  constructor
  · intro h
    have key : ∀ i, a.testBit i = false ∧ b.testBit i = false := by
      intro i
      have := congrArg (fun n => Nat.testBit n i) h
      simp only [Nat.testBit_or] at this
      exact Bool.or_eq_false_iff.mp (by simpa using this)
    constructor
    · exact Nat.eq_of_testBit_eq fun i => by simpa using (key i).1
    · exact Nat.eq_of_testBit_eq fun i => by simpa using (key i).2
  · rintro ⟨rfl, rfl⟩
    rfl

/-- Masking with a superset of the bits of `x` leaves `x` unchanged. -/
theorem orChain_and (x m : Nat) (h : ∀ i, x.testBit i = true → m.testBit i = true) :
    m &&& x = x := by
  apply Nat.eq_of_testBit_eq
  intro i
  simp only [Nat.testBit_and]
  cases hx : x.testBit i
  · simp
  · simp [h i hx]

/-- Each `FP_EX_*` mask is absorbed by the union of all five. -/
theorem allKindBits_and (b : FPExBits) (k : Kind) :
    allKindBits b &&& bitOf b k = bitOf b k := by
  apply orChain_and
  intro i hi
  cases k <;> simp only [bitOf] at hi <;>
    simp only [allKindBits, Nat.testBit_or] <;> simp [hi]

/-- Membership in the execution trace: a trigger of kind `k` runs exactly
when the configuration has a compiled-in check for `k` and the mask meets
the bit constant of `k`. -/
theorem mem_handle (b : FPExBits) (cfg : Config) (m : Nat) (k : Kind) :
    k ∈ __sfp_handle_exceptions b cfg m ↔ cfg.supports k ∧ m &&& bitOf b k ≠ 0 := by
  cases cfg with
  | mk fpu s2e =>
    cases fpu <;> cases s2e <;> cases k <;>
      simp [__sfp_handle_exceptions, Config.supports, bitOf]

/-- On the full-FPU configuration the trace is the source check order
filtered by the mask. -/
theorem handle_full_eq_filter (b : FPExBits) (m : Nat) :
    __sfp_handle_exceptions b fullCfg m =
      checkOrder.filter (fun k => decide (m &&& bitOf b k ≠ 0)) := by
  simp only [__sfp_handle_exceptions, fullCfg, checkOrder, List.filter, bitOf]
  split_ifs <;> simp_all

/-- Pointwise value of the sticky flags after running a trace: a flag is
set afterwards exactly when it was set before or its kind occurs in the
trace. -/
theorem runTriggers_apply (s : Flags) (t : List Kind) (j : Kind) :
    runTriggers s t j = (s j || decide (j ∈ t)) := by
  induction t generalizing s with
  | nil => simp [runTriggers]
  | cons a t ih =>
    simp only [runTriggers, List.foldl_cons] at *
    rw [ih]
    by_cases hj : j = a <;> simp [raiseFlag, hj]

/-- Running the same trace twice over the sticky flags equals running it
once. -/
theorem runTriggers_idem (s : Flags) (t : List Kind) :
    runTriggers (runTriggers s t) t = runTriggers s t := by
  funext j
  simp only [runTriggers_apply]
  cases s j <;> cases hd : decide (j ∈ t) <;> simp

/-! ## The claims -/

/-- C1: on the full-FPU configuration, the per-kind triggers executed by
`__sfp_handle_exceptions` occur exactly in the sequence INEXACT,
UNDERFLOW, OVERFLOW, DIVIDE-BY-ZERO, INVALID, each present if and only if
its bit is set in the mask, with nothing else interleaved: the trace is
the canonical check order filtered by the mask. -/
theorem full_fpu_trigger_sequence (b : FPExBits) (fex : Nat) :
    __sfp_handle_exceptions b fullCfg fex =
      checkOrder.filter (fun k => decide (fex &&& bitOf b k ≠ 0)) :=
  handle_full_eq_filter b fex

/-- C2: for a single-bit mask denoting a kind supported by the active
configuration, the call executes exactly the trigger of that kind and no
other, so on a trapping configuration only that trap is observed and on a
flags-only configuration only that flag becomes set. -/
theorem single_bit_single_trigger (b : FPExBits) (hb : b.wf) (cfg : Config)
    (k : Kind) (hk : cfg.supports k) :
    __sfp_handle_exceptions b cfg (bitOf b k) = [k] ∧
    observed_trap b cfg (bitOf b k) = some k ∧
    ∀ s : Flags,
      runTriggers s (__sfp_handle_exceptions b cfg (bitOf b k)) = raiseFlag s k := by
  have hcond : ∀ j, (bitOf b k &&& bitOf b j ≠ 0) ↔ j = k := by
    intro j
    by_cases hj : j = k
    · subst hj
      rw [Nat.and_self]
      simp [hb.1 j]
    · simp [hb.2 k j (fun h => hj h.symm), hj]
  have h1 : (bitOf b k &&& b.FP_EX_INEXACT ≠ 0) ↔ Kind.inexact = k := hcond Kind.inexact
  have h2 : (bitOf b k &&& b.FP_EX_UNDERFLOW ≠ 0) ↔ Kind.underflow = k := hcond Kind.underflow
  have h3 : (bitOf b k &&& b.FP_EX_OVERFLOW ≠ 0) ↔ Kind.overflow = k := hcond Kind.overflow
  have h4 : (bitOf b k &&& b.FP_EX_DIVZERO ≠ 0) ↔ Kind.divzero = k := hcond Kind.divzero
  have h5 : (bitOf b k &&& b.FP_EX_INVALID ≠ 0) ↔ Kind.invalid = k := hcond Kind.invalid
  have htrace : __sfp_handle_exceptions b cfg (bitOf b k) = [k] := by
    obtain ⟨fpu, s2e⟩ := cfg
    simp only [Config.supports] at hk
    obtain ⟨hfpu, hsup⟩ := hk
    subst hfpu
    cases s2e
    · cases k <;> simp [__sfp_handle_exceptions, h1, h2, h3, h4, h5]
    · rcases hsup with h | h | h
      · exact absurd h (by simp)
      · subst h; simp [__sfp_handle_exceptions, h4, h5]
      · subst h; simp [__sfp_handle_exceptions, h4, h5]
  refine ⟨htrace, ?_, ?_⟩
  · rw [observed_trap, htrace]
    rfl
  · intro s
    rw [htrace]
    rfl

/-- Witness for C2 at the concrete SH bit layout, the full-FPU
configuration and the DIVIDE-BY-ZERO kind. -/
theorem single_bit_single_trigger_witness :
    __sfp_handle_exceptions shBits fullCfg (bitOf shBits Kind.divzero) = [Kind.divzero] :=
  (single_bit_single_trigger shBits (by decide) fullCfg Kind.divzero (by decide)).1

/-- C3: with both the DIVIDE-BY-ZERO and the OVERFLOW bit set on the
full-FPU configuration, the first trigger the routine executes is the
OVERFLOW one, so under the trapping model (first trap diverts control)
the observed trap is overflow — contradicting both the claim and the
source comment, which require the divide-by-zero exception to come
first. -/
theorem divzero_overflow_mask_first_trap (b : FPExBits) (hb : b.wf) :
    observed_trap b fullCfg (b.FP_EX_DIVZERO ||| b.FP_EX_OVERFLOW) = some Kind.overflow := by
  have hZI : b.FP_EX_DIVZERO &&& b.FP_EX_INEXACT = 0 :=
    hb.2 Kind.divzero Kind.inexact (by decide)
  have hOI : b.FP_EX_OVERFLOW &&& b.FP_EX_INEXACT = 0 :=
    hb.2 Kind.overflow Kind.inexact (by decide)
  have hZU : b.FP_EX_DIVZERO &&& b.FP_EX_UNDERFLOW = 0 :=
    hb.2 Kind.divzero Kind.underflow (by decide)
  have hOU : b.FP_EX_OVERFLOW &&& b.FP_EX_UNDERFLOW = 0 :=
    hb.2 Kind.overflow Kind.underflow (by decide)
  have hZO : b.FP_EX_DIVZERO &&& b.FP_EX_OVERFLOW = 0 :=
    hb.2 Kind.divzero Kind.overflow (by decide)
  have hI : (b.FP_EX_DIVZERO ||| b.FP_EX_OVERFLOW) &&& b.FP_EX_INEXACT = 0 := by
    rw [or_and_distrib, hZI, hOI]
    exact Nat.zero_or 0
  have hU : (b.FP_EX_DIVZERO ||| b.FP_EX_OVERFLOW) &&& b.FP_EX_UNDERFLOW = 0 := by
    rw [or_and_distrib, hZU, hOU]
    exact Nat.zero_or 0
  have hO : (b.FP_EX_DIVZERO ||| b.FP_EX_OVERFLOW) &&& b.FP_EX_OVERFLOW ≠ 0 := by
    rw [or_and_distrib, hZO, Nat.and_self, Nat.zero_or]
    exact hb.1 Kind.overflow
  simp [observed_trap, __sfp_handle_exceptions, fullCfg, hI, hU, hO]

/-- Witness for C3 at the concrete SH bit layout: mask 0x20 | 0x10. -/
theorem divzero_overflow_mask_first_trap_witness :
    observed_trap shBits fullCfg (shBits.FP_EX_DIVZERO ||| shBits.FP_EX_OVERFLOW) =
      some Kind.overflow :=
  divzero_overflow_mask_first_trap shBits (by decide)

/-- C4, counterexample: with every bit set on the full-FPU configuration
(concrete SH layout, mask 0x7C), the trap observed under the trapping
model is not INVALID, refuting the claim as stated. -/
theorem all_bits_trap_not_invalid :
    observed_trap shBits fullCfg (allKindBits shBits) ≠ some Kind.invalid := by
  decide

/-- C4, amended: with every supported bit set on a trapping configuration,
the observed trap is the first check in code order — INEXACT on the
full-FPU configuration and DIVIDE-BY-ZERO on the reduced-FPU
configuration — not INVALID. -/
theorem all_bits_first_trap (b : FPExBits) (hb : b.wf) :
    observed_trap b fullCfg (allKindBits b) = some Kind.inexact ∧
    observed_trap b sh2eCfg (b.FP_EX_DIVZERO ||| b.FP_EX_INVALID) = some Kind.divzero := by
  constructor
  · have hI : allKindBits b &&& b.FP_EX_INEXACT ≠ 0 := by
      have := allKindBits_and b Kind.inexact
      simp only [bitOf] at this
      rw [this]
      exact hb.1 Kind.inexact
    simp [observed_trap, __sfp_handle_exceptions, fullCfg, hI]
  · have hVZ : b.FP_EX_INVALID &&& b.FP_EX_DIVZERO = 0 :=
      hb.2 Kind.invalid Kind.divzero (by decide)
    have hZ : (b.FP_EX_DIVZERO ||| b.FP_EX_INVALID) &&& b.FP_EX_DIVZERO ≠ 0 := by
      rw [or_and_distrib, Nat.and_self, hVZ, Nat.or_zero]
      exact hb.1 Kind.divzero
    simp [observed_trap, __sfp_handle_exceptions, sh2eCfg, hZ]

/-- Witness for the amended C4 at the concrete SH bit layout. -/
theorem all_bits_first_trap_witness :
    observed_trap shBits fullCfg (allKindBits shBits) = some Kind.inexact :=
  (all_bits_first_trap shBits (by decide)).1

/-- C5: on the reduced-FPU configuration (`__SH2E__`), a mask with no
DIVIDE-BY-ZERO and no INVALID bit executes no trigger at all, and in
general the trace equals the full-FPU trace restricted to the
DIVIDE-BY-ZERO and INVALID kinds, which therefore still trigger exactly
as on the full FPU. -/
theorem sh2e_reduced_behaviour (b : FPExBits) :
    (∀ m : Nat, m &&& b.FP_EX_DIVZERO = 0 → m &&& b.FP_EX_INVALID = 0 →
      __sfp_handle_exceptions b sh2eCfg m = []) ∧
    (∀ m : Nat,
      __sfp_handle_exceptions b sh2eCfg m =
        (__sfp_handle_exceptions b fullCfg m).filter
          (fun k => decide (k = Kind.divzero) || decide (k = Kind.invalid))) := by
  constructor
  · intro m hz hv
    simp [__sfp_handle_exceptions, sh2eCfg, hz, hv]
  · intro m
    simp only [__sfp_handle_exceptions, sh2eCfg, fullCfg]
    split_ifs <;> simp_all

/-- Witness for C5 at the concrete SH bit layout: the mask holding the
INEXACT, UNDERFLOW and OVERFLOW bits executes nothing under `__SH2E__`. -/
theorem sh2e_reduced_behaviour_witness :
    __sfp_handle_exceptions shBits sh2eCfg
      (shBits.FP_EX_INEXACT ||| shBits.FP_EX_UNDERFLOW ||| shBits.FP_EX_OVERFLOW) = [] :=
  (sh2e_reduced_behaviour shBits).1 _ (by decide) (by decide)

/-- C6: without an FPU (no `__SH_FPU_ANY__`), any mask value executes no
trigger, performs no floating-point operation and leaves the sticky flag
state untouched; the call falls through and returns normally. -/
theorem no_fpu_noop (b : FPExBits) (s2e : Bool) (fex : Nat) (s : Flags) :
    __sfp_handle_exceptions b ⟨false, s2e⟩ fex = [] ∧
    executedOps b ⟨false, s2e⟩ fex = [] ∧
    runTriggers s (__sfp_handle_exceptions b ⟨false, s2e⟩ fex) = s := by
  refine ⟨rfl, rfl, ?_⟩
  rfl

/-- C7: on a flags-only configuration, calling the routine twice with the
same single-kind mask leaves the sticky flags exactly as one call does:
flags are sticky and never cleared or toggled by the triggers. -/
theorem flags_idempotent (b : FPExBits) (cfg : Config) (k : Kind) (s : Flags) :
    runTriggers (runTriggers s (__sfp_handle_exceptions b cfg (bitOf b k)))
        (__sfp_handle_exceptions b cfg (bitOf b k)) =
      runTriggers s (__sfp_handle_exceptions b cfg (bitOf b k)) :=
  runTriggers_idem s _

/-- C8: every kind whose trigger the call executes uses exactly the
specified operation and operands — INEXACT divides 1.0 by 3.0, UNDERFLOW
divides `__LDBL_MIN__` by 10 (a value greater than one), OVERFLOW
multiplies `__LDBL_MAX__` by itself, DIVIDE-BY-ZERO divides the nonzero
finite value 1.0 by exactly 0.0, and INVALID multiplies positive infinity
by exactly 0.0 — and that operation appears in the executed operation
sequence. -/
theorem trigger_operations (b : FPExBits) (cfg : Config) (fex : Nat) (F : LDblFormat)
    (k : Kind) (hk : k ∈ __sfp_handle_exceptions b cfg fex) :
    OpSpec F k (asmOf k) ∧ asmOf k ∈ executedOps b cfg fex := by
  constructor
  · cases k <;> simp [OpSpec, asmOf, Val.eval, HUGE_VAL]
  · exact List.mem_map_of_mem _ hk

/-- Witness for C8 at the INVALID kind on the full-FPU configuration with
the concrete SH bit layout. -/
theorem trigger_operations_witness :
    OpSpec ⟨1/2, 2⟩ Kind.invalid (asmOf Kind.invalid) ∧
      asmOf Kind.invalid ∈ executedOps shBits fullCfg 64 :=
  trigger_operations shBits fullCfg 64 ⟨1/2, 2⟩ Kind.invalid (by decide)

/-- C9: the routine validates nothing and ignores unrecognised bits: its
behaviour on any mask is identical to its behaviour on the mask restricted
to the five recognised `FP_EX_*` bits. -/
theorem unrecognized_bits_ignored (b : FPExBits) (cfg : Config) (m : Nat) :
    __sfp_handle_exceptions b cfg m =
      __sfp_handle_exceptions b cfg (m &&& allKindBits b) := by
  have hA : ∀ j : Kind, (m &&& allKindBits b) &&& bitOf b j = m &&& bitOf b j := by
    intro j
    rw [Nat.and_assoc, allKindBits_and]
  have h1 : (m &&& allKindBits b) &&& b.FP_EX_INEXACT = m &&& b.FP_EX_INEXACT :=
    hA Kind.inexact
  have h2 : (m &&& allKindBits b) &&& b.FP_EX_UNDERFLOW = m &&& b.FP_EX_UNDERFLOW :=
    hA Kind.underflow
  have h3 : (m &&& allKindBits b) &&& b.FP_EX_OVERFLOW = m &&& b.FP_EX_OVERFLOW :=
    hA Kind.overflow
  have h4 : (m &&& allKindBits b) &&& b.FP_EX_DIVZERO = m &&& b.FP_EX_DIVZERO :=
    hA Kind.divzero
  have h5 : (m &&& allKindBits b) &&& b.FP_EX_INVALID = m &&& b.FP_EX_INVALID :=
    hA Kind.invalid
  simp only [__sfp_handle_exceptions, h1, h2, h3, h4, h5]

/-- C10: for a fixed configuration, the set of executed triggers on the
bitwise or of two masks is the union of the sets executed on each mask
separately, so the trigger set is a bitwise-or homomorphism and monotone
in the mask. -/
theorem trigger_set_or_homomorphism (b : FPExBits) (cfg : Config) (x y : Nat) (k : Kind) :
    k ∈ __sfp_handle_exceptions b cfg (x ||| y) ↔
      k ∈ __sfp_handle_exceptions b cfg x ∨ k ∈ __sfp_handle_exceptions b cfg y := by
  simp only [mem_handle, or_and_distrib, Ne, or_eq_zero]
  tauto

end SfpSh
